import Mathlib

/-!
Verification of the zen-coding `abbreviationParser2` module
(`javascript/parsers/abbreviationParser2.js`).

The JavaScript source is shallowly embedded: the abbreviation tree is an
inductive type, the mutable scanning loop becomes explicit state passing
over a cursor position, repeat counts and positions are `Nat`, and code
that throws returns `Except String`.  The generic character cursor
(`stringStream`) and the string trim utility are external collaborators of
the module; they are modelled from their documented contracts where noted.
-/

/-- An attribute: a (name, value) pair, as produced by `extractAttributes`
and `parseAttributes`. -/
structure Attr where
  name : String
  value : String
deriving DecidableEq, Repr

/-- An externally resolved element resource (canonical name plus default
attributes), as stashed in a node via `data('resource')` by a
preprocessor. -/
structure ElemRes where
  name : String
  attributes : List Attr
deriving DecidableEq, Repr

/-- `AbbreviationNode`: one node of the abbreviation tree.  Fields mirror
the constructor in the source: `abbreviation` (raw abbreviation),
`counter`, `_name` (here `elemName`, `none` for the JS `null`), `_text`
(here `text`), `repeatCount`, `hasImplicitRepeat`, `_attributes` (here
`attrsRaw`), the `resource` entry of the `_data` dictionary, and
`children`.  The `parent` back-reference is represented structurally (a
node owns its children), and the output-only fields `start`/`end`/`padding`
are omitted (never touched by the parser or the rewrite passes). -/
inductive AbbreviationNode : Type where
  | mk (abbreviation : String) (counter : Nat) (elemName : Option String)
       (text : String) (repeatCount : Nat) (hasImplicitRepeat : Bool)
       (attrsRaw : List Attr) (resource : Option ElemRes)
       (children : List AbbreviationNode) : AbbreviationNode

namespace AbbreviationNode

/-- Raw abbreviation of a node (`this.abbreviation`). -/
def abbreviation : AbbreviationNode → String
  | .mk a _ _ _ _ _ _ _ _ => a

/-- Counter of a node (`this.counter`). -/
def counter : AbbreviationNode → Nat
  | .mk _ c _ _ _ _ _ _ _ => c

/-- Parsed element name of a node (`this._name`; `none` for JS `null`). -/
def elemName : AbbreviationNode → Option String
  | .mk _ _ n _ _ _ _ _ _ => n

/-- Inline text of a node (`this._text`). -/
def text : AbbreviationNode → String
  | .mk _ _ _ t _ _ _ _ _ => t

/-- Repeat count of a node (`this.repeatCount`). -/
def repeatCount : AbbreviationNode → Nat
  | .mk _ _ _ _ r _ _ _ _ => r

/-- Implicit-repeat flag of a node (`this.hasImplicitRepeat`). -/
def hasImplicitRepeat : AbbreviationNode → Bool
  | .mk _ _ _ _ _ i _ _ _ => i

/-- Own attribute list of a node (`this._attributes`). -/
def attrsRaw : AbbreviationNode → List Attr
  | .mk _ _ _ _ _ _ ats _ _ => ats

/-- The externally resolved resource of a node (`this.data('resource')`),
when a preprocessor attached an element descriptor. -/
def resource : AbbreviationNode → Option ElemRes
  | .mk _ _ _ _ _ _ _ r _ => r

/-- Children of a node (`this.children`). -/
def children : AbbreviationNode → List AbbreviationNode
  | .mk _ _ _ _ _ _ _ _ cs => cs

/-- A fresh node, as built by `new AbbreviationNode`. -/
def fresh : AbbreviationNode :=
  .mk "" 1 none "" 1 false [] none []

/-- `isGroup()`: the node has no representation of its own and only serves
as a container (`!this.abbreviation`). -/
def isGroup (n : AbbreviationNode) : Bool :=
  n.abbreviation = ""

/-- `isEmpty()`: no raw abbreviation and no children. -/
def isEmpty (n : AbbreviationNode) : Bool :=
  n.abbreviation = "" && n.children.length = 0

/-- `isRepeating()`: `repeatCount > 1 || hasImplicitRepeat`. -/
def isRepeating (n : AbbreviationNode) : Bool :=
  n.repeatCount > 1 || n.hasImplicitRepeat

/-- Append a node at the end of a parent's child list
(`addChild` with no explicit position). -/
def pushChild (p c : AbbreviationNode) : AbbreviationNode :=
  match p with
  | .mk a cnt nm tx rc ir ats res cs => .mk a cnt nm tx rc ir ats res (cs ++ [c])

/-- Append several nodes at the end of a parent's child list (the
`_.each(inner.children, function(child) { context.addChild(child); })`
loop of the group case). -/
def pushChildren (p : AbbreviationNode) (l : List AbbreviationNode) : AbbreviationNode :=
  match p with
  | .mk a cnt nm tx rc ir ats res cs => .mk a cnt nm tx rc ir ats res (cs ++ l)

end AbbreviationNode

/-- `optimizeAttributes` inner merge: fold the value of a later duplicate
into the first (kept) occurrence of the same name; `class` (compared
case-insensitively) concatenates with a single space, every other name is
overwritten. -/
def updateAttrValue : List Attr → Attr → List Attr
  | [], _ => []
  | b :: bs, a =>
    if b.name = a.name then
      (if a.name.toLower = "class" then
        { b with value := b.value ++ (if b.value = "" then "" else " ") ++ a.value }
       else { b with value := a.value }) :: bs
    else b :: updateAttrValue bs a

/-- `optimizeAttributes`: remove duplicates keeping first-occurrence order,
merging later values into the kept entry per `updateAttrValue`. -/
def optimizeAttributes (attrs : List Attr) : List Attr :=
  attrs.foldl
    (fun acc a => if acc.any (fun b => b.name = a.name) then updateAttrValue acc a else acc ++ [a])
    []

/-- `attributeList()` for a node: resource attributes (when an element
resource is attached) followed by the node's own attributes, optimized. -/
def attributeList (n : AbbreviationNode) : List Attr :=
  let base := match n.resource with
    | some r => r.attributes
    | none => []
  optimizeAttributes (base ++ n.attrsRaw)

/-- The public `attribute(name)` accessor: find the first attribute with
the given name in `attributeList()` and return its `name` field (the
source reads `.name`, not `.value`); `none` models the JS `undefined`
coming from `({}).name`. -/
def attributeGet (n : AbbreviationNode) (nm : String) : Option String :=
  match (attributeList n).find? (fun attr => attr.name = nm) with
  | some attr => some attr.name
  | none => none

/-- Character class of `isAllowedChar`: ASCII letters, digits and the
special characters of the source string. -/
def isAllowedChar (ch : Char) : Bool :=
  let n := ch.toNat
  (64 < n && n < 91) || (96 < n && n < 123) || (47 < n && n < 58) ||
    ch ∈ ['#', '.', '*', ':', '$', '-', '_', '!', '@', '|']

/-- Character class of `reWord` (`/[\w\-:\$]/`). -/
def isWordChar (c : Char) : Bool :=
  c.isAlpha || c.isDigit || c ∈ ['_', '-', ':', '$']

/-- Character class of the name charset in `reValidName`
(`[\w\-\$\:@\!]`). -/
def isValidNameChar (c : Char) : Bool :=
  c.isAlpha || c.isDigit || c ∈ ['_', '-', '$', ':', '@', '!']

/-- `reValidName` (`/^[\w\-\$\:@\!]+\+?$/i`): one or more name characters,
optionally followed by a single trailing plus sign. -/
def validName (s : String) : Bool :=
  let l := s.data
  let core := if l.getLast? = some '+' then l.dropLast else l
  (!core.isEmpty) && core.all isValidNameChar

/-- Whitespace, as matched by the `\s`-based trim and `eatSpace`
collaborators. -/
def isSpaceChar (c : Char) : Bool :=
  c = ' ' || c = '\t' || c = '\n' || c = '\r' || c = Char.ofNat 11 || c = Char.ofNat 12

/-- Modelled from the spec: the external string trim utility
(`require('utils').trim`) removes leading and trailing whitespace. -/
def trim (l : List Char) : List Char :=
  ((l.dropWhile isSpaceChar).reverse.dropWhile isSpaceChar).reverse

/-- Number of whitespace characters at position `pos` (the cursor's
`eatSpace`). -/
def spaceRun (s : List Char) (pos : Nat) : Nat :=
  ((s.drop pos).takeWhile isSpaceChar).length

/-- Word-character run starting at `pos` (the cursor's
`eatWhile(reWord)`). -/
def wordRun (s : List Char) (pos : Nat) : List Char :=
  (s.drop pos).takeWhile isWordChar

/-- Digit run starting at `pos` (for the `(\d+)?` multiplier groups). -/
def digitRun (s : List Char) (pos : Nat) : List Char :=
  (s.drop pos).takeWhile Char.isDigit

/-- Numeric value of a digit string, as `parseInt(count, 10)`. -/
def digitsToNat (l : List Char) : Nat :=
  l.foldl (fun acc c => acc * 10 + (c.toNat - 48)) 0

/-- The `pairs` table mapping an opening bracket to its closing one. -/
def pairChar (c : Char) : Char :=
  if c = '[' then ']'
  else if c = '(' then ')'
  else if c = Char.ofNat 123 then Char.ofNat 125
  else Char.ofNat 0

/-- Modelled from the spec: worker for the external cursor's
`skipToPair(open, close)` — walk forward counting nested pairs of the same
kind and return the position just past the balancing close, or `none` when
the input ends first.  `pos` is the absolute position of the head of the
remaining list. -/
def skipToPairAux (oc cc : Char) : List Char → Nat → Nat → Option Nat
  | [], _, _ => none
  | c :: rest, pos, depth =>
    if c = oc then skipToPairAux oc cc rest (pos + 1) (depth + 1)
    else if c = cc then
      (if depth ≤ 1 then some (pos + 1) else skipToPairAux oc cc rest (pos + 1) (depth - 1))
    else skipToPairAux oc cc rest (pos + 1) depth

/-- Modelled from the spec: the external cursor's `skipToPair`, from
absolute position `pos` in `s` (the caller has the cursor on the opening
character). -/
def skipToPair (s : List Char) (oc cc : Char) (pos : Nat) : Option Nat :=
  skipToPairAux oc cc (s.drop pos) pos 0

theorem skipToPairAux_bounds {oc cc : Char} :
    ∀ (l : List Char) (pos depth p' : Nat),
      skipToPairAux oc cc l pos depth = some p' → pos < p' ∧ p' ≤ pos + l.length := by
  intro l
  induction l with
  | nil => intro pos depth p' h; simp [skipToPairAux] at h
  | cons c rest ih =>
    intro pos depth p' h
    simp only [skipToPairAux] at h
    split at h
    · have := ih (pos + 1) (depth + 1) p' h
      simp only [List.length_cons]
      omega
    · split at h
      · split at h
        · simp only [Option.some.injEq] at h
          simp only [List.length_cons]
          omega
        · have := ih (pos + 1) (depth - 1) p' h
          simp only [List.length_cons]
          omega
      · have := ih (pos + 1) depth p' h
        simp only [List.length_cons]
        omega

theorem skipToPair_bounds {s : List Char} {oc cc : Char} {pos p' : Nat}
    (h : skipToPair s oc cc pos = some p') : pos < p' ∧ p' ≤ s.length := by
  have := skipToPairAux_bounds (s.drop pos) pos 0 p' h
  have hl : (s.drop pos).length = s.length - pos := List.length_drop pos s
  omega

/-- `stripped(str)`: the string without its first and last character
(`substring(1, length - 1)`). -/
def stripped (l : List Char) : List Char :=
  (l.drop 1).dropLast

/-- The cursor's `current()`: the span between a marked `start` and the
current position. -/
def streamCurrent (s : List Char) (start pos : Nat) : List Char :=
  (s.drop start).take (pos - start)

/-- `consumeQuotedValue`: scan forward for the closing quote, returning
the position just past it.  The source's backslash branch is a bare
`continue`, which does not skip the following character, so the scan in
fact stops at the first occurrence of the quote character. -/
def consumeQuotedValue (s : List Char) (quote : Char) (pos : Nat) : Option Nat :=
  ((s.drop pos).findIdx? (fun c => c = quote)).map (fun i => pos + i + 1)

theorem consumeQuotedValue_bounds {s : List Char} {quote : Char} {pos q : Nat}
    (h : consumeQuotedValue s quote pos = some q) : pos < q ∧ q ≤ s.length := by
  simp only [consumeQuotedValue, Option.map_eq_some'] at h
  obtain ⟨i, hi, rfl⟩ := h
  have hlt : i < (s.drop pos).length := List.findIdx?_eq_some_iff_findIdx_eq.mp hi |>.1
  have hl : (s.drop pos).length = s.length - pos := List.length_drop pos s
  omega

/-- Worker for `extractAttributes`: the `while (!stream.eol())` loop.
One iteration reads a word-run attribute name, an optional `=value`
(quoted per `consumeQuotedValue`, or one blindly consumed character
followed by a non-empty word run), pushes the pair and eats whitespace.
The loop breaks when no word run is found. -/
def extractAttributesLoop (s : List Char) : Nat → Nat → List Attr →
    Except String (List Attr)
  | 0, _, acc => .ok acc
  | fuel + 1, pos, acc =>
  if pos < s.length then
    let w := wordRun s pos
    if w = [] then .ok acc
    else
      let attrName := String.mk w
      let p1 := pos + w.length
      if s.getD p1 ' ' = '=' ∧ p1 < s.length then
        -- start is set to the position after the equals sign, then one
        -- character is consumed as a candidate quote
        let p2 := p1 + 1
        if hp2 : p2 < s.length then
          let quote := s.getD p2 ' '
          let p3 := p2 + 1
          if quote = '"' ∨ quote = Char.ofNat 39 then
            match consumeQuotedValue s quote p3 with
            | some q =>
              -- current() spans from the mark at p2; the quotes are stripped
              let value := String.mk (stripped (streamCurrent s p2 q))
              extractAttributesLoop s fuel (q + spaceRun s q) (acc ++ [⟨attrName, value⟩])
            | none => .error "Invalid attribute value"
          else
            let w2 := wordRun s p3
            if w2 = [] then .error "Invalid attribute value"
            else
              let value := String.mk (quote :: w2)
              extractAttributesLoop s fuel (p3 + w2.length + spaceRun s (p3 + w2.length))
                (acc ++ [⟨attrName, value⟩])
        else .error "Invalid attribute value"
      else
        extractAttributesLoop s fuel (p1 + spaceRun s p1) (acc ++ [⟨attrName, ""⟩])
  else .ok acc

/-- `extractAttributes(attrSet)`: trim the attribute-set body, eat leading
space, then run the attribute loop. -/
def extractAttributes (attrSet : List Char) : Except String (List Attr) :=
  let t := trim attrSet
  extractAttributesLoop t (t.length + 1) (spaceRun t 0) []

/-- Result of `parseAttributes`: the element-name part of the token and
the optimized attribute list. -/
structure AttrParse where
  element : List Char
  attributes : List Attr
deriving DecidableEq

/-- Worker for `parseAttributes`: scan the token, translating `#id` and
`.class` markers and bracketed `[...]` attribute sets; `nameEnd` records
the position of the first marker (the end of the element name). -/
def parseAttributesLoop (s : List Char) : Nat → Nat → Option Nat → List Attr →
    Except String (Option AttrParse)
  | 0, _, _, _ => .ok none
  | fuel + 1, pos, nameEnd, acc =>
  if pos < s.length then
    let c := s.getD pos ' '
    if c = '#' ∨ c = '.' then
      let ne := match nameEnd with | none => some pos | some e => some e
      let attrName := if c = '#' then "id" else "class"
      let w := wordRun s (pos + 1)
      parseAttributesLoop s fuel (pos + 1 + w.length) ne (acc ++ [⟨attrName, String.mk w⟩])
    else if c = '[' then
      let ne := match nameEnd with | none => some pos | some e => some e
      match skipToPair s '[' ']' pos with
      | none => .error "Invalid attribute set definition"
      | some p' =>
        match extractAttributes (stripped (streamCurrent s pos p')) with
        | .error e => .error e
        | .ok attrs2 => parseAttributesLoop s fuel p' ne (acc ++ attrs2)
    else parseAttributesLoop s fuel (pos + 1) nameEnd acc
  else
    if acc = [] then .ok none
    else .ok (some ⟨s.take ((nameEnd.getD 0)), optimizeAttributes acc⟩)

/-- `parseAttributes(abbr)`: `none` when the token holds no attribute
markers, otherwise the name part (before the first marker) and the
optimized attributes. -/
def parseAttributes (abbr : List Char) : Except String (Option AttrParse) :=
  parseAttributesLoop abbr (abbr.length + 1) 0 none []

/-- Result of `extractText`. -/
structure TextParse where
  element : List Char
  text : List Char
deriving DecidableEq

/-- Worker for `extractText`: scan the token, skipping `[...]`/`(...)`
pairs, until an opening brace; the balanced brace span becomes the text
and everything before the brace the remaining element.  When `skipToPair`
fails on a bracket the source would rescan the same position forever; that
never happens for scanner-produced tokens (their brackets are balanced),
and the model stops the scan instead. -/
def extractTextLoop (s : List Char) : Nat → Nat → Option TextParse
  | 0, _ => none
  | fuel + 1, pos =>
  if pos < s.length then
    let c := s.getD pos ' '
    if c = '[' ∨ c = '(' then
      match skipToPair s c (pairChar c) pos with
      | some p' => extractTextLoop s fuel p'
      | none => extractTextLoop s fuel pos
    else if c = Char.ofNat 123 then
      match skipToPair s (Char.ofNat 123) (Char.ofNat 125) pos with
      | some p' => some ⟨s.take pos, stripped (streamCurrent s pos p')⟩
      | none =>
        -- failed skipToPair leaves the cursor in place: current() is empty
        some ⟨s.take pos, stripped (streamCurrent s pos pos)⟩
    else extractTextLoop s fuel (pos + 1)
  else none

/-- `extractText(abbr)`: `none` when the token has no opening brace,
otherwise the element/text split found by the scan. -/
def extractText (abbr : List Char) : Option TextParse :=
  if abbr.contains (Char.ofNat 123) then extractTextLoop abbr (abbr.length + 1) 0 else none

/-- `_setRepeat(count)`: digits give an explicit repeat count
(`parseInt(...) || 1` turns `0` into `1`), a bare multiplier only sets
`hasImplicitRepeat`. -/
def setRepeat (n : AbbreviationNode) (count : Option (List Char)) : AbbreviationNode :=
  match n, count with
  | .mk a cnt nm tx _ ir ats res cs, some ds =>
    .mk a cnt nm tx (if digitsToNat ds = 0 then 1 else digitsToNat ds) ir ats res cs
  | .mk a cnt nm tx rc _ ats res cs, none =>
    .mk a cnt nm tx rc true ats res cs

/-- The trailing-multiplier strip of `setAbbreviation`
(`abbr.replace(/\*(\d+)?$/ ...)`): when the longest digit suffix is
immediately preceded by a star, remove the star and the digits and report
the digits (`none` inside `some` models the undefined capture of a bare
star). -/
def stripMultiplier (abbr : List Char) : List Char × Option (Option (List Char)) :=
  let ds := (abbr.reverse.takeWhile Char.isDigit).reverse
  let rest := abbr.take (abbr.length - ds.length)
  if rest.getLast? = some '*' then
    (rest.dropLast, some (if ds = [] then none else some ds))
  else (abbr, none)

/-- Field update used by `setAbbreviation`: store the raw abbreviation. -/
def withAbbreviation (n : AbbreviationNode) (a : String) : AbbreviationNode :=
  match n with
  | .mk _ cnt nm tx rc ir ats res cs => .mk a cnt nm tx rc ir ats res cs

/-- Field update used by `setAbbreviation`: store the inline text. -/
def withText (n : AbbreviationNode) (t : String) : AbbreviationNode :=
  match n with
  | .mk a cnt nm _ rc ir ats res cs => .mk a cnt nm t rc ir ats res cs

/-- Field update used by `setAbbreviation`: store the attribute list. -/
def withAttrs (n : AbbreviationNode) (ats : List Attr) : AbbreviationNode :=
  match n with
  | .mk a cnt nm tx rc ir _ res cs => .mk a cnt nm tx rc ir ats res cs

/-- Field update used by `setAbbreviation`: store the element name. -/
def withName (n : AbbreviationNode) (nm : Option String) : AbbreviationNode :=
  match n with
  | .mk a cnt _ tx rc ir ats res cs => .mk a cnt nm tx rc ir ats res cs

/-- `setAbbreviation(abbr)`: strip a trailing multiplier into
`repeatCount`/`hasImplicitRepeat`, store the stripped string as the raw
abbreviation, extract `{...}` text, extract attributes, store the
remaining string as `_name` and validate it against `reValidName`. -/
def setAbbreviation (n : AbbreviationNode) (abbr0 : List Char) :
    Except String AbbreviationNode :=
  let sm := stripMultiplier abbr0
  let abbr1 := sm.1
  let n1 : AbbreviationNode := match sm.2 with
    | some c => setRepeat n c
    | none => n
  let n2 := withAbbreviation n1 (String.mk abbr1)
  let et := extractText abbr1
  let abbr2 := match et with
    | some tp => tp.element
    | none => abbr1
  let n3 := match et with
    | some tp => withText n2 (String.mk tp.text)
    | none => n2
  match parseAttributes abbr2 with
  | .error e => .error e
  | .ok pa =>
    let abbr3 := match pa with
      | some ap => ap.element
      | none => abbr2
    let n4 := match pa with
      | some ap => withAttrs n3 ap.attributes
      | none => n3
    let n5 := withName n4 (some (String.mk abbr3))
    if String.mk abbr3 ≠ "" ∧ ¬ validName (String.mk abbr3) then
      .error "Invalid abbreviation"
    else .ok n5

/-- The lookahead of the token scanner at a plus sign: the plus is an
"expando marker" (and stays inside the token) when it is followed by the
end of input or by one of the operator characters of `'+>^*'`. -/
def plusIsMarker (s : List Char) (pos : Nat) : Bool :=
  s.length ≤ pos + 1 || (s.getD (pos + 1) ' ') ∈ ['+', '>', '^', '*']

/-- The token consumption of the scanner's default case
(`stream.eatWhile(...)`), with an explicit step budget: starting at `pos`,
return the position at which the token ends.  Brackets `[`/`{` are skipped
as balanced pairs (a failure to balance raises the unmatched-pair error),
a plus sign is consumed only when `plusIsMarker` holds, and otherwise
consumption continues while the character is allowed and is not an opening
parenthesis.  Every recursive call strictly advances the position, so a
budget exceeding the remaining length (as supplied by `eatToken`) is never
exhausted. -/
def eatTokenF (s : List Char) : Nat → Nat → Except String Nat
  | 0, pos => .ok pos
  | fuel + 1, pos =>
    if pos < s.length then
      let c := s.getD pos ' '
      if c = '[' ∨ c = Char.ofNat 123 then
        match skipToPair s c (pairChar c) pos with
        | some p' => eatTokenF s fuel p'
        | none =>
          .error ("Invalid abbreviation: mo matching \"" ++ String.mk [pairChar c] ++
            "\" found for character at " ++ toString pos)
      else if c = '+' then
        if plusIsMarker s pos then eatTokenF s fuel (pos + 1) else .ok pos
      else if c ≠ '(' ∧ isAllowedChar c then eatTokenF s fuel (pos + 1)
      else .ok pos
    else .ok pos

/-- The token consumption of the scanner's default case, from `pos`. -/
def eatToken (s : List Char) (pos : Nat) : Except String Nat :=
  eatTokenF s (s.length + 1 - pos) pos

/-- Parser state: the zipper of the mutable `context` pointer.  `ctx` is
the current context node, `top` its parent with the children accumulated
so far (the context is appended on the way out), and `rest` the remaining
ancestors up to and including the synthetic root.  During parsing every
node on the path from the root to the context is the last child of its
parent, which is what makes this zipper representation exact. -/
structure PState where
  ctx : AbbreviationNode
  top : AbbreviationNode
  rest : List AbbreviationNode

/-- Close the zipper: fold the pending context into its ancestors and
return the synthetic root. -/
def closeAll (st : PState) : AbbreviationNode :=
  st.rest.foldl (fun acc g => AbbreviationNode.pushChild g acc)
    (AbbreviationNode.pushChild st.top st.ctx)

/-- The initial parser state: a fresh root whose single child is the
initial context (`var root = new AbbreviationNode; var context =
root.addChild()`). -/
def initPState : PState :=
  ⟨AbbreviationNode.fresh, AbbreviationNode.fresh, []⟩

/-- One iteration of the scan loop of `parseAbbreviation`: dispatch on the
character under the cursor (`(` group, `>` child, `+` sibling, `^` climb,
or token consumption) and return the next cursor position and state.  The
recursive descent into a group interior is abstracted as `recParse`, which
`parseAbbreviationF` instantiates with itself at the next nesting depth. -/
def parseStepF (recParse : List Char → Except String AbbreviationNode)
    (s : List Char) (pos : Nat) (st : PState) : Except String (Nat × PState) :=
  let ch := s.getD pos ' '
  if ch = '(' then
    match skipToPair s '(' ')' pos with
    | some p' =>
      match recParse (stripped (streamCurrent s pos p')) with
      | .error e => .error e
      | .ok inner =>
        -- an immediately following multiplier applies to the context node
        let stm :=
          if s.getD p' ' ' = '*' then
            let ds := digitRun s (p' + 1)
            (p' + 1 + ds.length,
              { st with ctx := setRepeat st.ctx (if ds = [] then none else some ds) })
          else (p', st)
        .ok (stm.1,
          { stm.2 with
            ctx := AbbreviationNode.pushChildren stm.2.ctx inner.children })
    | none =>
      .error ("Invalid abbreviation: mo matching \")\" found for character at " ++ toString pos)
  else if ch = '>' then
    .ok (pos + 1, ⟨AbbreviationNode.fresh, st.ctx, st.top :: st.rest⟩)
  else if ch = '+' then
    .ok (pos + 1, ⟨AbbreviationNode.fresh, AbbreviationNode.pushChild st.top st.ctx, st.rest⟩)
  else if ch = '^' then
    let p := AbbreviationNode.pushChild st.top st.ctx
    match st.rest with
    | [] => .ok (pos + 1, ⟨AbbreviationNode.fresh, p, []⟩)
    | g :: gs => .ok (pos + 1, ⟨AbbreviationNode.fresh, AbbreviationNode.pushChild g p, gs⟩)
  else
    match eatToken s pos with
    | .error e => .error e
    | .ok pos' =>
      match setAbbreviation st.ctx (streamCurrent s pos pos') with
      | .error e => .error e
      | .ok ctx' => .ok (pos', { st with ctx := ctx' })

/-- The scan loop of `parseAbbreviation`
(`while (!stream.eol() && --loopProtector > 0)` with the final
`if (loopProtector < 1) throw`): runs the step until the cursor reaches
the end of input, aborting with the runaway error when the decremented
guard is no longer positive, that is once fewer than two units of budget
remain while input is left. -/
def parseLoopF (recParse : List Char → Except String AbbreviationNode)
    (s : List Char) : Nat → Nat → PState → Except String PState
  | 0, pos, st => if pos < s.length then .error "Endless loop detected" else .ok st
  | 1, pos, st => if pos < s.length then .error "Endless loop detected" else .ok st
  | fuel + 2, pos, st =>
    if pos < s.length then
      match parseStepF recParse s pos st with
      | .error e => .error e
      | .ok (pos', st') => parseLoopF recParse s (fuel + 1) pos' st'
    else .ok st

/-- `parseAbbreviation(abbr)` at a given group-nesting budget: trim the
input, scan it with a loop-guard budget of 1000, and close the zipper into
the synthetic root.  Each group recursion strictly shrinks the input, so
the budget supplied by `parseAbbreviation` is never exhausted. -/
def parseAbbreviationF : Nat → List Char → Except String AbbreviationNode
  | 0, _ => .error "Endless loop detected"
  | d + 1, s =>
    match parseLoopF (parseAbbreviationF d) (trim s) 1000 0 initPState with
    | .error e => .error e
    | .ok st => .ok (closeAll st)

/-- `parseAbbreviation(abbr)`. -/
def parseAbbreviation (s : List Char) : Except String AbbreviationNode :=
  parseAbbreviationF (s.length + 1) s

mutual

/-- The unroll pass on one node.  `k = some m` means an enclosing
expansion has just propagated `counter = m` over this subtree
(`updateProperty('counter', m)`), `none` means the counter is left alone;
`reset` records that this node is the top of an expanded repeat and its
own `repeatCount` was reset to 1.  The children are rewritten by
`unrollChildren`. -/
def unrollNode (k : Option Nat) (reset : Bool) : AbbreviationNode → AbbreviationNode
  | .mk a cnt nm tx rc ir ats res cs =>
    .mk a (k.getD cnt) nm tx (if reset then 1 else rc) ir ats res (unrollChildren k cs)

/-- The child-list rewrite of `unroll`: every repeating child is replaced
by the original (counter 1, `repeatCount` reset) followed by its
`repeatCount - 1` clones with counters 2, 3, ...; a non-repeating child is
kept and recursed into.  The per-level expansion happens first and the
recursion visits the expanded children, exactly as the source expands the
child array and then maps `unroll` over it. -/
def unrollChildren (k : Option Nat) : List AbbreviationNode → List AbbreviationNode
  | [] => []
  | c@(.mk _ _ _ _ rc ir _ _ _) :: cs =>
    (if rc > 1 || ir then
      unrollNode (some 1) true c ::
        (List.range (rc - 1)).map (fun i => unrollNode (some (i + 2)) true c)
     else [unrollNode k false c]) ++ unrollChildren k cs

end

/-- `unroll(node)`: expand every repeating descendant into sibling clones
with ascending counters. -/
def unroll (n : AbbreviationNode) : AbbreviationNode :=
  unrollNode none false n

mutual

/-- The squash pass on one node: rewrite its child list. -/
def squashNode : AbbreviationNode → AbbreviationNode
  | .mk a cnt nm tx rc ir ats res cs =>
    .mk a cnt nm tx rc ir ats res (squashChildren cs)

/-- The child-list rewrite of `squash`: a group child (empty raw
abbreviation — `isEmpty` children are a subset of `isGroup` ones, so the
`else if` branch of the source is subsumed) is replaced in place by its
children, a non-group child is kept; afterwards `squash` recurses into
each resulting child.  Children spliced in from a replaced group are
recursed into but are not themselves re-tested at this level, exactly as
in the source. -/
def squashChildren : List AbbreviationNode → List AbbreviationNode
  | [] => []
  | c@(.mk a _ _ _ _ _ _ _ gs) :: cs =>
    (if a = "" then squashSpliced gs else [squashNode c]) ++ squashChildren cs

/-- Apply `squash` to each child spliced in from a replaced group node. -/
def squashSpliced : List AbbreviationNode → List AbbreviationNode
  | [] => []
  | c :: cs => squashNode c :: squashSpliced cs

end

/-- `squash(node)`. -/
def squash (n : AbbreviationNode) : AbbreviationNode :=
  squashNode n

/-- `parse(abbr, options)` with the process-wide pre/postprocessor
registries in their initial (empty) state: build the raw tree, then
`squash(unroll(tree))`. -/
def parse (s : List Char) : Except String AbbreviationNode :=
  match parseAbbreviation s with
  | .error e => .error e
  | .ok tree => .ok (squash (unroll tree))

/-- String-facing wrapper of `parse`. -/
def parseS (s : String) : Except String AbbreviationNode :=
  parse s.data

/-- String-facing wrapper of `parseAbbreviation`. -/
def parseAbbreviationS (s : String) : Except String AbbreviationNode :=
  parseAbbreviation s.data

mutual

/-- Every node strictly below this one has a non-empty raw abbreviation
(no group and no empty node occurs in the subtree's proper descendants). -/
def cleanNode : AbbreviationNode → Bool
  | .mk _ _ _ _ _ _ _ _ cs => cleanList cs

/-- Every node of the forest (the listed nodes and their descendants) has
a non-empty raw abbreviation. -/
def cleanList : List AbbreviationNode → Bool
  | [] => true
  | (.mk a _ _ _ _ _ _ _ gs) :: cs => (a != "") && cleanList gs && cleanList cs

end

mutual

/-- Below this node, every group node's children all carry non-empty raw
abbreviations (no group node directly contains another group or an empty
node). -/
def groupsFlatNode : AbbreviationNode → Bool
  | .mk _ _ _ _ _ _ _ _ cs => groupsFlatList cs

/-- Forest version of `groupsFlatNode`. -/
def groupsFlatList : List AbbreviationNode → Bool
  | [] => true
  | (.mk a _ _ _ _ _ _ _ gs) :: cs =>
    (if a = "" then gs.all (fun g => g.abbreviation != "") else true) &&
      groupsFlatList gs && groupsFlatList cs

end

mutual

/-- Every node strictly below this one has a non-empty raw abbreviation or
at least one child. -/
def noBareEmptyNode : AbbreviationNode → Bool
  | .mk _ _ _ _ _ _ _ _ cs => noBareEmptyList cs

/-- Forest version of `noBareEmptyNode`. -/
def noBareEmptyList : List AbbreviationNode → Bool
  | [] => true
  | (.mk a _ _ _ _ _ _ _ gs) :: cs =>
    (a != "" || !gs.isEmpty) && noBareEmptyList gs && noBareEmptyList cs

end

mutual

/-- Erase every `counter` in the subtree (compare trees up to counters). -/
def stripCounters : AbbreviationNode → AbbreviationNode
  | .mk a _ nm tx rc ir ats res cs => .mk a 0 nm tx rc ir ats res (stripCountersList cs)

/-- Forest version of `stripCounters`. -/
def stripCountersList : List AbbreviationNode → List AbbreviationNode
  | [] => []
  | c :: cs => stripCounters c :: stripCountersList cs

end

mutual

/-- Every node of the subtree (this one included) has counter `m`. -/
def allCountersNode (m : Nat) : AbbreviationNode → Bool
  | .mk _ cnt _ _ _ _ _ _ cs => (cnt == m) && allCountersList m cs

/-- Forest version of `allCountersNode`. -/
def allCountersList (m : Nat) : List AbbreviationNode → Bool
  | [] => true
  | c :: cs => allCountersNode m c && allCountersList m cs

end

mutual

/-- No node of the subtree (this one included) is repeating. -/
def noRepeatsNode : AbbreviationNode → Bool
  | .mk _ _ _ _ rc ir _ _ cs => !(rc > 1 || ir) && noRepeatsList cs

/-- Forest version of `noRepeatsNode`. -/
def noRepeatsList : List AbbreviationNode → Bool
  | [] => true
  | c :: cs => noRepeatsNode c && noRepeatsList cs

end

theorem find_name_if_any (nm : String) : ∀ l : List Attr,
    (match l.find? (fun attr => attr.name = nm) with
     | some attr => some attr.name
     | none => none) =
      if l.any (fun attr => attr.name = nm) then some nm else none := by
  intro l
  induction l with
  | nil => simp
  | cons a t ih =>
    by_cases h : a.name = nm
    · simp [List.find?_cons, List.any_cons, h]
    · simp only [List.find?_cons, List.any_cons, h]
      simp only [decide_eq_true_eq] at *
      simp [h, ih]

/-- C10: the public `attribute(name)` accessor returns the matched
attribute's `name` field — the queried name itself — whenever an attribute
with that name exists in `attributeList()`, and nothing (`undefined`)
otherwise; it never returns the attribute's value. -/
theorem attribute_returns_name (n : AbbreviationNode) (nm : String) :
    attributeGet n nm =
      if (attributeList n).any (fun attr => attr.name = nm) then some nm else none := by
  simpa [attributeGet] using find_name_if_any nm (attributeList n)

theorem trim_nil_of_space (s : List Char) (h : s.all isSpaceChar = true) :
    trim s = [] := by
  have h1 : s.dropWhile isSpaceChar = [] := by
    rw [List.dropWhile_eq_nil_iff]
    intro x hx
    exact List.all_eq_true.mp h x hx
  simp [trim, h1]

theorem parseLoopF_eol (recP : List Char → Except String AbbreviationNode)
    (s : List Char) (fuel pos : Nat) (st : PState) (h : s.length ≤ pos) :
    parseLoopF recP s fuel pos st = .ok st := by
  have h' : ¬ pos < s.length := by omega
  match fuel with
  | 0 => simp [parseLoopF, h']
  | 1 => simp [parseLoopF, h']
  | (f + 2) => simp [parseLoopF, h']

/-- C9: parsing the empty string or a whitespace-only string raises no
error and returns a root node with an empty child list (the synthetic
context child created at initialization is pruned by squash, which
flattens its empty child list into the root). -/
theorem parse_whitespace_empty_root (s : List Char) (h : s.all isSpaceChar = true) :
    parse s = .ok (.mk "" 1 none "" 1 false [] none []) := by
  have ht := trim_nil_of_space s h
  simp only [parse, parseAbbreviation, parseAbbreviationF, ht]
  rw [parseLoopF_eol _ _ _ _ _ (by simp)]
  simp [closeAll, initPState, AbbreviationNode.fresh, AbbreviationNode.pushChild,
    unroll, unrollNode, unrollChildren, squash, squashNode, squashChildren, squashSpliced]

theorem parse_whitespace_empty_root_witness :
    ("  ".data.all isSpaceChar = true) ∧
      parse "  ".data = .ok (.mk "" 1 none "" 1 false [] none []) :=
  ⟨by decide, parse_whitespace_empty_root _ (by decide)⟩

/-- C2: a multiplier directly after a parenthesized group is applied to
the current context node itself — the raw tree has a single context child
whose `repeatCount` is 2 and whose children are the spliced-in `div` and
`span`, with no extra node created for the group — and unrolling then
yields two copies of that context with counters 1 and 2, each with its own
`div` and `span` children (the group contexts are dissolved later by the
squash pass). -/
theorem group_multiplier_applies_to_context :
    parseAbbreviationS "(div+span)*2" =
      .ok (.mk "" 1 none "" 1 false [] none
        [.mk "" 1 none "" 2 false [] none
          [.mk "div" 1 (some "div") "" 1 false [] none [],
           .mk "span" 1 (some "span") "" 1 false [] none []]]) ∧
    (parseAbbreviationS "(div+span)*2").map unroll =
      .ok (.mk "" 1 none "" 1 false [] none
        [.mk "" 1 none "" 1 false [] none
          [.mk "div" 1 (some "div") "" 1 false [] none [],
           .mk "span" 1 (some "span") "" 1 false [] none []],
         .mk "" 2 none "" 1 false [] none
          [.mk "div" 2 (some "div") "" 1 false [] none [],
           .mk "span" 2 (some "span") "" 1 false [] none []]]) := by
  constructor
  · rfl
  · have h : parseAbbreviationS "(div+span)*2" =
        .ok (.mk "" 1 none "" 1 false [] none
          [.mk "" 1 none "" 2 false [] none
            [.mk "div" 1 (some "div") "" 1 false [] none [],
             .mk "span" 1 (some "span") "" 1 false [] none []]]) := rfl
    rw [h]
    simp [Except.map, unroll, unrollNode, unrollChildren, List.range_succ]

/-- C6: the testable property `a[href=# title="Hi"] → one node with
attributes [{href: "#"}, {title: "Hi"}]` fails on the code: the bare-value
branch of `extractAttributes` consumes the first value character as a
quote probe and then requires a non-empty word run, so a one-character
bare value such as `#` (or the `col=3` of the function's own doc comment)
raises `Invalid attribute value` instead of parsing. -/
theorem attr_set_single_char_value_rejected :
    parseS "a[href=# title=\"Hi\"]" = .error "Invalid attribute value" := rfl

/-- C5 counterexample: the claim predicts that a `+` followed by
end-of-input is consumed as a sibling operator (so that scanning `b+`
would stop the token at position 1 and create a second, empty sibling);
in the code such a `+` is an expando marker kept inside the token: the
token scan consumes both characters and parsing yields a single node with
raw abbreviation `b+`. -/
theorem plus_before_eol_stays_in_token :
    eatToken "b+".data 0 = .ok 2 ∧
    eatToken "b+".data 0 ≠ .ok 1 ∧
    parseAbbreviationS "b+" =
      .ok (.mk "" 1 none "" 1 false [] none
        [.mk "b+" 1 (some "b+") "" 1 false [] none []]) :=
  ⟨rfl, by
    intro h
    rw [show eatToken "b+".data 0 = Except.ok 2 from rfl] at h
    simp at h, rfl⟩

set_option maxRecDepth 100000 in
/-- C5 amended: during token consumption a `+` is kept inside the token
exactly when it is followed by end-of-input or one of the operator
characters `+ > ^ *` (the expando-marker lookahead), and otherwise it ends
the token, after which the scan-loop switch consumes it as the sibling
operator; `div+span` therefore parses as two siblings while `ul+` parses
as a single node whose raw abbreviation keeps the trailing `+`. -/
theorem plus_token_scan_rule :
    (∀ (s : List Char) (pos : Nat), pos < s.length → s.getD pos ' ' = '+' →
      eatToken s pos =
        (if plusIsMarker s pos then eatToken s (pos + 1) else .ok pos)) ∧
    parseAbbreviationS "div+span" =
      .ok (.mk "" 1 none "" 1 false [] none
        [.mk "div" 1 (some "div") "" 1 false [] none [],
         .mk "span" 1 (some "span") "" 1 false [] none []]) ∧
    parseAbbreviationS "ul+" =
      .ok (.mk "" 1 none "" 1 false [] none
        [.mk "ul+" 1 (some "ul+") "" 1 false [] none []]) := by
  refine ⟨?_, rfl, rfl⟩
  intro s pos hlt hc
  have h1 : s.length + 1 - pos = (s.length - pos) + 1 := by omega
  have h2 : s.length + 1 - (pos + 1) = s.length - pos := by omega
  simp only [eatToken, h1, h2, eatTokenF, hlt, if_pos, hc]
  have hch : ¬('+' = '[' ∨ '+' = Char.ofNat 123) := by decide
  simp [hch]

theorem plus_token_scan_rule_witness :
    (1 < "a+b".data.length) ∧ ("a+b".data.getD 1 ' ' = '+') ∧
      eatToken "a+b".data 1 =
        (if plusIsMarker "a+b".data 1 then eatToken "a+b".data 2 else .ok 1) :=
  ⟨by decide, by decide, plus_token_scan_rule.1 _ 1 (by decide) (by decide)⟩

set_option maxRecDepth 100000 in
/-- C7 counterexample: `div%x` does not fail with the invalid-name check
of `setAbbreviation`; the scanner simply cannot consume `%`, the token
consumption returns an empty token forever, and the loop guard aborts the
parse with the runaway error instead. -/
theorem invalid_char_hits_loop_guard :
    parseS "div%x" = .error "Endless loop detected" ∧
      ("Endless loop detected" : String) ≠ "Invalid abbreviation" :=
  ⟨rfl, by decide⟩

theorem elemName_withName (n : AbbreviationNode) (v : Option String) :
    (withName n v).elemName = v := by
  cases n
  rfl

/-- C7 amended: the invalid-name check fires inside `setAbbreviation`: a
node accepted by `setAbbreviation` always carries an element name that is
empty or passes `reValidName`, and an abbreviation whose token resolves to
a name with a disallowed character — such as `a|b`, whose `|` is an
allowed token character but not a name character — is rejected by the full
parse with `Invalid abbreviation`.  A character such as `%` that the
scanner cannot consume at all instead triggers the runaway-loop error. -/
theorem invalid_name_rejected :
    (∀ (n n' : AbbreviationNode) (abbr : List Char),
      setAbbreviation n abbr = .ok n' →
        n'.elemName.getD "" = "" ∨ validName (n'.elemName.getD "") = true) ∧
    parseS "a|b" = .error "Invalid abbreviation" := by
  refine ⟨?_, rfl⟩
  intro n n' abbr h
  simp only [setAbbreviation] at h
  split at h
  · exact absurd h (by simp)
  · split at h
    · exact absurd h (by simp)
    · rename_i hguard
      rw [not_and_or, not_not, not_ne_iff] at hguard
      simp only [Except.ok.injEq] at h
      subst h
      rw [elemName_withName]
      simpa using hguard

theorem invalid_name_rejected_witness :
    (setAbbreviation AbbreviationNode.fresh ['a'] =
      .ok (.mk "a" 1 (some "a") "" 1 false [] none [])) ∧
      ((AbbreviationNode.mk "a" 1 (some "a") "" 1 false [] none []).elemName.getD "" = "" ∨
        validName ((AbbreviationNode.mk "a" 1 (some "a") "" 1 false [] none
          []).elemName.getD "") = true) :=
  ⟨rfl, invalid_name_rejected.1 AbbreviationNode.fresh _ ['a'] rfl⟩

theorem squash_id_aux : ∀ (N : Nat) (l : List AbbreviationNode), sizeOf l ≤ N →
    cleanList l = true → squashChildren l = l ∧ squashSpliced l = l := by
  intro N
  induction N using Nat.strong_induction_on with
  | _ N ih =>
    intro l hsz hcl
    match l with
    | [] => simp [squashChildren, squashSpliced]
    | (AbbreviationNode.mk a cnt nm tx rc ir ats res gs) :: cs =>
      simp only [cleanList, Bool.and_eq_true, bne_iff_ne, ne_eq] at hcl
      obtain ⟨⟨ha, hgs⟩, hcs⟩ := hcl
      have hsz' := hsz
      simp only [List.cons.sizeOf_spec, AbbreviationNode.mk.sizeOf_spec] at hsz'
      have hgs' : squashChildren gs = gs ∧ squashSpliced gs = gs :=
        ih (sizeOf gs) (by omega) gs le_rfl hgs
      have hcs' : squashChildren cs = cs ∧ squashSpliced cs = cs :=
        ih (sizeOf cs) (by omega) cs le_rfl hcs
      have hnode : squashNode (AbbreviationNode.mk a cnt nm tx rc ir ats res gs)
          = AbbreviationNode.mk a cnt nm tx rc ir ats res gs := by
        simp [squashNode, hgs'.1]
      constructor
      · simp [squashChildren, ha, hnode, hcs'.1]
      · simp [squashSpliced, hnode, hcs'.2]

theorem squash_fixed_of_clean (t : AbbreviationNode) (h : cleanNode t = true) :
    squashNode t = t := by
  cases t with
  | mk a cnt nm tx rc ir ats res cs =>
    simp only [cleanNode] at h
    simp [squashNode, (squash_id_aux (sizeOf cs) cs le_rfl h).1]

theorem cleanList_append : ∀ (x y : List AbbreviationNode),
    cleanList (x ++ y) = (cleanList x && cleanList y) := by
  intro x y
  induction x with
  | nil => simp [cleanList]
  | cons c cs ih =>
    cases c with
    | mk a cnt nm tx rc ir ats res gs =>
      simp [cleanList, ih, Bool.and_assoc]

theorem clean_noBare : ∀ (N : Nat) (l : List AbbreviationNode), sizeOf l ≤ N →
    cleanList l = true → noBareEmptyList l = true := by
  intro N
  induction N using Nat.strong_induction_on with
  | _ N ih =>
    intro l hsz hcl
    match l with
    | [] => simp [noBareEmptyList]
    | (AbbreviationNode.mk a cnt nm tx rc ir ats res gs) :: cs =>
      simp only [cleanList, Bool.and_eq_true, bne_iff_ne, ne_eq] at hcl
      obtain ⟨⟨ha, hgs⟩, hcs⟩ := hcl
      have hsz' := hsz
      simp only [List.cons.sizeOf_spec, AbbreviationNode.mk.sizeOf_spec] at hsz'
      simp only [noBareEmptyList, Bool.and_eq_true]
      refine ⟨⟨?_, ih (sizeOf gs) (by omega) gs le_rfl hgs⟩,
        ih (sizeOf cs) (by omega) cs le_rfl hcs⟩
      simp [ha]

theorem squash_clean_aux : ∀ (N : Nat) (l : List AbbreviationNode), sizeOf l ≤ N →
    (groupsFlatList l = true → cleanList (squashChildren l) = true) ∧
    ((l.all (fun g => g.abbreviation != "") && groupsFlatList l) = true →
      cleanList (squashSpliced l) = true) := by
  intro N
  induction N using Nat.strong_induction_on with
  | _ N ih =>
    intro l hsz
    match l with
    | [] => simp [squashChildren, squashSpliced, cleanList]
    | (AbbreviationNode.mk a cnt nm tx rc ir ats res gs) :: cs =>
      have hsz' := hsz
      simp only [List.cons.sizeOf_spec, AbbreviationNode.mk.sizeOf_spec] at hsz'
      constructor
      · intro hfl
        simp only [groupsFlatList, Bool.and_eq_true] at hfl
        obtain ⟨⟨hif, hgs⟩, hcs⟩ := hfl
        simp only [squashChildren, cleanList_append, Bool.and_eq_true]
        constructor
        · by_cases ha : a = ""
          · simp only [ha, if_pos]
            exact (ih (sizeOf gs) (by omega) gs le_rfl).2
              (by simp only [Bool.and_eq_true]; exact ⟨by simpa [ha] using hif, hgs⟩)
          · simp only [ha, if_neg, ite_false]
            have hclean := (ih (sizeOf gs) (by omega) gs le_rfl).1 hgs
            simp [squashNode, cleanList, ha, hclean]
        · exact (ih (sizeOf cs) (by omega) cs le_rfl).1 hcs
      · intro hsp
        simp only [Bool.and_eq_true, List.all_cons, groupsFlatList] at hsp
        obtain ⟨⟨hha, hall⟩, ⟨hif, hgs⟩, hcs⟩ := hsp
        have hclean := (ih (sizeOf gs) (by omega) gs le_rfl).1 hgs
        simp only [squashSpliced, squashNode, cleanList, Bool.and_eq_true]
        refine ⟨⟨?_, hclean⟩, (ih (sizeOf cs) (by omega) cs le_rfl).2 ?_⟩
        · simpa [AbbreviationNode.abbreviation] using hha
        · simp only [Bool.and_eq_true]
          exact ⟨hall, hcs⟩

theorem squash_clean_of_groupsFlat (t : AbbreviationNode)
    (h : groupsFlatNode t = true) : cleanNode (squash t) = true := by
  cases t with
  | mk a cnt nm tx rc ir ats res cs =>
    simp only [groupsFlatNode] at h
    simp only [squash, squashNode, cleanNode]
    exact (squash_clean_aux (sizeOf cs) cs le_rfl).1 h

/-- C4 counterexample: squash is not idempotent.  For the nested-group
tree `root → group → group → a` (the raw parse shape of `((a))`), the
first squash replaces the outer group by the inner one without
re-examining it, so a second squash still finds a group to flatten and
yields a strictly different tree. -/
theorem squash_not_idempotent :
    squash (squash (.mk "" 1 none "" 1 false [] none
      [.mk "" 1 none "" 1 false [] none
        [.mk "" 1 none "" 1 false [] none
          [.mk "a" 1 (some "a") "" 1 false [] none []]]])) ≠
    squash (.mk "" 1 none "" 1 false [] none
      [.mk "" 1 none "" 1 false [] none
        [.mk "" 1 none "" 1 false [] none
          [.mk "a" 1 (some "a") "" 1 false [] none []]]]) := by
  intro h
  simp [squash, squashNode, squashChildren, squashSpliced] at h

/-- C4 amended: a tree in which every node below the root has a non-empty
raw abbreviation is a fixed point of squash, and squashing twice equals
squashing once for every tree whose group nodes contain only children
with non-empty raw abbreviations; full idempotence fails because children
spliced in from a flattened group are not re-examined at that level
(nested groups survive one pass). -/
theorem squash_idempotent_on_flat :
    (∀ t : AbbreviationNode, cleanNode t = true → squash t = t) ∧
    (∀ t : AbbreviationNode, groupsFlatNode t = true → squash (squash t) = squash t) := by
  constructor
  · intro t h
    simpa [squash] using squash_fixed_of_clean t h
  · intro t h
    have hc := squash_clean_of_groupsFlat t h
    simpa [squash] using squash_fixed_of_clean (squash t) hc

theorem squash_idempotent_on_flat_witness :
    (cleanNode (.mk "" 1 none "" 1 false [] none
      [.mk "a" 1 (some "a") "" 1 false [] none []]) = true) ∧
    squash (.mk "" 1 none "" 1 false [] none
      [.mk "a" 1 (some "a") "" 1 false [] none []]) =
      .mk "" 1 none "" 1 false [] none
        [.mk "a" 1 (some "a") "" 1 false [] none []] :=
  ⟨by simp [cleanNode, cleanList],
    squash_idempotent_on_flat.1 _ (by simp [cleanNode, cleanList])⟩

/-- C3 counterexample: the squash pass can leave group nodes and bare
empty nodes in its output.  The raw parse of `((a))` nests one group in
another: the outer group is flattened but the spliced-in inner group is
never re-examined, so a node with an empty raw abbreviation survives; the
raw parse of `(+a)` splices an empty childless node out of a group, and it
survives with neither a raw abbreviation nor any descendant. -/
theorem squash_output_retains_groups :
    (parseS "((a))").map cleanNode = .ok false ∧
    (parseS "(+a)").map noBareEmptyNode = .ok false := by
  constructor
  · have h : parseAbbreviation "((a))".data =
        .ok (.mk "" 1 none "" 1 false [] none
          [.mk "" 1 none "" 1 false [] none
            [.mk "" 1 none "" 1 false [] none
              [.mk "a" 1 (some "a") "" 1 false [] none []]]]) := rfl
    simp [parseS, parse, h, Except.map, unroll, unrollNode, unrollChildren,
      squash, squashNode, squashChildren, squashSpliced, cleanNode, cleanList]
  · have h : parseAbbreviation "(+a)".data =
        .ok (.mk "" 1 none "" 1 false [] none
          [.mk "" 1 none "" 1 false [] none
            [.mk "" 1 none "" 1 false [] none [],
             .mk "a" 1 (some "a") "" 1 false [] none []]]) := rfl
    simp [parseS, parse, h, Except.map, unroll, unrollNode, unrollChildren,
      squash, squashNode, squashChildren, squashSpliced, noBareEmptyNode, noBareEmptyList]

/-- C3 amended: when every group node of the input holds only children
with non-empty raw abbreviations (no group directly contains another
group or an empty node), the squash output is group-free: every surviving
node below the root has a non-empty raw abbreviation, hence also a
non-empty raw abbreviation or a surviving descendant.  Without that
proviso, spliced-in children of a flattened group are not re-examined and
group or empty nodes can survive. -/
theorem squash_output_clean_when_flat (t : AbbreviationNode)
    (h : groupsFlatNode t = true) :
    cleanNode (squash t) = true ∧ noBareEmptyNode (squash t) = true := by
  have hc := squash_clean_of_groupsFlat t h
  refine ⟨hc, ?_⟩
  cases hsq : squash t with
  | mk a cnt nm tx rc ir ats res cs =>
    rw [hsq] at hc
    simp only [cleanNode] at hc
    simp only [noBareEmptyNode]
    exact clean_noBare (sizeOf cs) cs le_rfl hc

theorem squash_output_clean_when_flat_witness :
    (groupsFlatNode (.mk "" 1 none "" 1 false [] none
      [.mk "" 1 none "" 1 false [] none
        [.mk "a" 1 (some "a") "" 1 false [] none []]]) = true) ∧
    (cleanNode (squash (.mk "" 1 none "" 1 false [] none
      [.mk "" 1 none "" 1 false [] none
        [.mk "a" 1 (some "a") "" 1 false [] none []]])) = true ∧
     noBareEmptyNode (squash (.mk "" 1 none "" 1 false [] none
      [.mk "" 1 none "" 1 false [] none
        [.mk "a" 1 (some "a") "" 1 false [] none []]])) = true) :=
  ⟨by simp [groupsFlatNode, groupsFlatList, AbbreviationNode.abbreviation],
    squash_output_clean_when_flat _
      (by simp [groupsFlatNode, groupsFlatList, AbbreviationNode.abbreviation])⟩

theorem stripCountersList_append : ∀ x y : List AbbreviationNode,
    stripCountersList (x ++ y) = stripCountersList x ++ stripCountersList y := by
  intro x y
  induction x with
  | nil => simp [stripCountersList]
  | cons c cs ih => simp [stripCountersList, ih]

theorem strip_unroll_congr : ∀ N : Nat,
    (∀ c : AbbreviationNode, sizeOf c ≤ N → ∀ (k k' : Option Nat) (r : Bool),
      stripCounters (unrollNode k r c) = stripCounters (unrollNode k' r c)) ∧
    (∀ l : List AbbreviationNode, sizeOf l ≤ N → ∀ k k' : Option Nat,
      stripCountersList (unrollChildren k l) = stripCountersList (unrollChildren k' l)) := by
  intro N
  induction N using Nat.strong_induction_on with
  | _ N ih =>
    constructor
    · intro c hsz k k' r
      cases c with
      | mk a cnt nm tx rc ir ats res cs =>
        have h2 := hsz
        simp only [AbbreviationNode.mk.sizeOf_spec] at h2
        simp only [unrollNode, stripCounters, AbbreviationNode.mk.injEq, true_and, and_true]
        exact (ih (sizeOf cs) (by omega)).2 cs le_rfl k k'
    · intro l hsz k k'
      match l with
      | [] => simp [unrollChildren]
      | (AbbreviationNode.mk a cnt nm tx rc ir ats res gs) :: cs =>
        have h1 := hsz
        simp only [List.cons.sizeOf_spec] at h1
        simp only [unrollChildren, stripCountersList_append]
        by_cases hrep : (decide (rc > 1) || ir) = true
        · simp only [hrep, if_pos]
          rw [(ih (sizeOf cs) (by omega)).2 cs le_rfl k k']
        · simp only [Bool.not_eq_true] at hrep
          simp only [hrep, Bool.false_eq_true, if_neg, ite_false]
          rw [(ih (sizeOf cs) (by omega)).2 cs le_rfl k k']
          have hnode := (ih (sizeOf (AbbreviationNode.mk a cnt nm tx rc ir ats res gs))
            (by omega)).1 (AbbreviationNode.mk a cnt nm tx rc ir ats res gs)
            le_rfl k k' false
          simp [stripCountersList, hnode]

theorem counters_propagate : ∀ N : Nat,
    (∀ c : AbbreviationNode, sizeOf c ≤ N → ∀ (m : Nat) (r : Bool),
      noRepeatsList c.children = true →
      allCountersNode m (unrollNode (some m) r c) = true) ∧
    (∀ l : List AbbreviationNode, sizeOf l ≤ N → ∀ m : Nat,
      noRepeatsList l = true →
      allCountersList m (unrollChildren (some m) l) = true) := by
  intro N
  induction N using Nat.strong_induction_on with
  | _ N ih =>
    constructor
    · intro c hsz m r hnr
      cases c with
      | mk a cnt nm tx rc ir ats res cs =>
        have h2 := hsz
        simp only [AbbreviationNode.mk.sizeOf_spec] at h2
        simp only [AbbreviationNode.children] at hnr
        simp only [unrollNode, allCountersNode, Option.getD, Bool.and_eq_true, beq_self_eq_true,
          true_and]
        exact (ih (sizeOf cs) (by omega)).2 cs le_rfl m hnr
    · intro l hsz m hnr
      match l with
      | [] => simp [unrollChildren, allCountersList]
      | (AbbreviationNode.mk a cnt nm tx rc ir ats res gs) :: cs =>
        have h1 := hsz
        simp only [List.cons.sizeOf_spec] at h1
        simp only [noRepeatsList, Bool.and_eq_true] at hnr
        obtain ⟨hnode, hcs⟩ := hnr
        simp only [noRepeatsNode, Bool.and_eq_true] at hnode
        obtain ⟨hflag, hgs⟩ := hnode
        have hrep' : (decide (rc > 1) || ir) = false := by simpa using hflag
        simp only [unrollChildren, hrep', Bool.false_eq_true, if_neg, ite_false,
          List.singleton_append, allCountersList, Bool.and_eq_true]
        constructor
        · exact (ih (sizeOf (AbbreviationNode.mk a cnt nm tx rc ir ats res gs))
            (by omega)).1 _ le_rfl m false (by simpa [AbbreviationNode.children] using hgs)
        · exact (ih (sizeOf cs) (by omega)).2 cs le_rfl m hcs

/-- C1 counterexample: the counter is not propagated to each copy's whole
subtree in the unroll output.  For `a*2>b*2`, the first copy of `a`
carries counter 1, but the deeper repeat of `b` is expanded afterwards
and overwrites the propagated counter, leaving a descendant with
counter 2 inside the copy whose counter the claim requires to be 1
throughout. -/
theorem unroll_counter_not_propagated_nested :
    (parseAbbreviationS "a*2>b*2").map unroll =
      .ok (.mk "" 1 none "" 1 false [] none
        [.mk "a" 1 (some "a") "" 1 false [] none
          [.mk "b" 1 (some "b") "" 1 false [] none [],
           .mk "b" 2 (some "b") "" 1 false [] none []],
         .mk "a" 2 (some "a") "" 1 false [] none
          [.mk "b" 1 (some "b") "" 1 false [] none [],
           .mk "b" 2 (some "b") "" 1 false [] none []]]) ∧
    allCountersNode 1 (.mk "a" 1 (some "a") "" 1 false [] none
      [.mk "b" 1 (some "b") "" 1 false [] none [],
       .mk "b" 2 (some "b") "" 1 false [] none []]) = false := by
  constructor
  · have h : parseAbbreviationS "a*2>b*2" =
        .ok (.mk "" 1 none "" 1 false [] none
          [.mk "a" 1 (some "a") "" 2 false [] none
            [.mk "b" 1 (some "b") "" 2 false [] none []]]) := rfl
    rw [h]
    simp [Except.map, unroll, unrollNode, unrollChildren, List.range_succ]
  · simp [allCountersNode, allCountersList]

/-- C1 amended: unrolling replaces every repeating child of
`repeatCount = j ≥ 1` by exactly `j` copies in left-to-right counter
order 1..j — the `i`-th copy being the original subtree with
`repeatCount` reset to 1 and counter `i` propagated — so the copies are
structurally identical up to counters, each top node carries its 1-based
counter and a reset `repeatCount`, and the counter reaches the copy's
whole subtree whenever the subtree contains no further repeating node
(a deeper repeat is re-expanded afterwards and overwrites it);
`div>ul>li*3` accordingly parses to `div → ul → (li 1, li 2, li 3)`. -/
theorem unroll_expands_repeats :
    (∀ (c : AbbreviationNode) (k : Option Nat) (j : Nat),
      c.isRepeating = true → c.repeatCount = j → 1 ≤ j →
      unrollChildren k [c] =
        (List.range j).map (fun i => unrollNode (some (i + 1)) true c)) ∧
    (∀ (m : Nat) (r : Bool) (c : AbbreviationNode),
      (unrollNode (some m) r c).counter = m ∧
      (unrollNode (some m) true c).repeatCount = 1) ∧
    (∀ (m m' : Nat) (r : Bool) (c : AbbreviationNode),
      stripCounters (unrollNode (some m) r c) = stripCounters (unrollNode (some m') r c)) ∧
    (∀ (m : Nat) (c : AbbreviationNode), noRepeatsList c.children = true →
      allCountersNode m (unrollNode (some m) true c) = true) ∧
    parseS "div>ul>li*3" = .ok (.mk "" 1 none "" 1 false [] none
      [.mk "div" 1 (some "div") "" 1 false [] none
        [.mk "ul" 1 (some "ul") "" 1 false [] none
          [.mk "li" 1 (some "li") "" 1 false [] none [],
           .mk "li" 2 (some "li") "" 1 false [] none [],
           .mk "li" 3 (some "li") "" 1 false [] none []]]]) := by
  refine ⟨?_, ?_, ?_, ?_, ?_⟩
  · intro c k j hrep hj h1
    cases c with
    | mk a cnt nm tx rc ir ats res cs =>
      simp only [AbbreviationNode.isRepeating, AbbreviationNode.repeatCount,
        AbbreviationNode.hasImplicitRepeat] at hrep hj
      subst hj
      obtain ⟨j', rfl⟩ : ∃ j', rc = j' + 1 := ⟨rc - 1, by omega⟩
      simp only [unrollChildren, hrep, if_pos, List.append_nil, Nat.add_sub_cancel]
      rw [List.range_succ_eq_map, List.map_cons, List.map_map]
      simp only [Nat.zero_add]
      congr 1
  · intro m r c
    cases c with
    | mk a cnt nm tx rc ir ats res cs =>
      simp [unrollNode, AbbreviationNode.counter, AbbreviationNode.repeatCount]
  · intro m m' r c
    exact (strip_unroll_congr (sizeOf c)).1 c le_rfl (some m) (some m') r
  · intro m c h
    exact (counters_propagate (sizeOf c)).1 c le_rfl m true h
  · have h : parseAbbreviationS "div>ul>li*3" =
        .ok (.mk "" 1 none "" 1 false [] none
          [.mk "div" 1 (some "div") "" 1 false [] none
            [.mk "ul" 1 (some "ul") "" 1 false [] none
              [.mk "li" 1 (some "li") "" 3 false [] none []]]]) := rfl
    simp only [parseAbbreviationS] at h
    simp only [parseS, parse, h]
    simp [unroll, unrollNode, unrollChildren, List.range_succ,
      squash, squashNode, squashChildren, squashSpliced]

theorem unroll_expands_repeats_witness :
    (AbbreviationNode.isRepeating
      (.mk "li" 1 (some "li") "" 3 false [] none []) = true) ∧
    (AbbreviationNode.repeatCount
      (.mk "li" 1 (some "li") "" 3 false [] none []) = 3) ∧
    unrollChildren none [.mk "li" 1 (some "li") "" 3 false [] none []] =
      (List.range 3).map (fun i =>
        unrollNode (some (i + 1)) true (.mk "li" 1 (some "li") "" 3 false [] none [])) :=
  ⟨rfl, rfl, unroll_expands_repeats.1 _ none 3 rfl rfl (by norm_num)⟩

theorem trim_eq_self (l : List Char) (h : ∀ c ∈ l, isSpaceChar c = false) :
    trim l = l := by
  have h1 : l.dropWhile isSpaceChar = l := by
    rw [List.dropWhile_eq_self_iff]
    intro hl
    have hx := h _ (List.get_mem l 0 hl)
    simp only [List.get_eq_getElem] at hx
    simp [hx]
  have h2 : l.reverse.dropWhile isSpaceChar = l.reverse := by
    rw [List.dropWhile_eq_self_iff]
    intro hl
    have hmem := List.get_mem l.reverse 0 hl
    rw [List.mem_reverse] at hmem
    have hx := h _ hmem
    simp only [List.get_eq_getElem, List.getElem_reverse] at hx
    simpa using hx
  simp [trim, h1, h2]

theorem getD_replicate (c d : Char) : ∀ (n i : Nat),
    (List.replicate n c).getD i d = if i < n then c else d := by
  intro n
  induction n with
  | zero => intro i; simp [List.replicate]
  | succ m ih =>
    intro i
    match i with
    | 0 => simp [List.replicate]
    | (j + 1) =>
      simp only [List.replicate, List.getD_cons_succ, ih j]
      simp [Nat.add_lt_add_iff_right]

theorem parseLoop_gt_run (recP : List Char → Except String AbbreviationNode)
    (s : List Char) : ∀ (fuel pos : Nat) (st : PState),
    (∀ i, pos ≤ i → i < s.length → s.getD i ' ' = '>') →
    ((s.length - pos + 1 ≤ fuel → (parseLoopF recP s fuel pos st).isOk = true) ∧
     (pos < s.length → fuel ≤ s.length - pos →
       parseLoopF recP s fuel pos st = .error "Endless loop detected")) := by
  intro fuel
  induction fuel using Nat.strong_induction_on with
  | _ fuel ih =>
    intro pos st hall
    match fuel with
    | 0 =>
      constructor
      · intro hle
        have hpos : ¬ pos < s.length := by omega
        simp [parseLoopF, hpos, Except.isOk, Except.toBool]
      · intro hpos _
        simp [parseLoopF, hpos]
    | 1 =>
      constructor
      · intro hle
        have hpos : ¬ pos < s.length := by omega
        simp [parseLoopF, hpos, Except.isOk, Except.toBool]
      · intro hpos _
        simp [parseLoopF, hpos]
    | (f + 2) =>
      by_cases hpos : pos < s.length
      · have hch : s.getD pos ' ' = '>' := hall pos le_rfl hpos
        have hstep : parseStepF recP s pos st =
            .ok (pos + 1, ⟨AbbreviationNode.fresh, st.ctx, st.top :: st.rest⟩) := by
          simp only [parseStepF, hch]
          simp
        have hall' : ∀ i, pos + 1 ≤ i → i < s.length → s.getD i ' ' = '>' :=
          fun i h1 h2 => hall i (by omega) h2
        have ihrec := ih (f + 1) (by omega) (pos + 1)
          ⟨AbbreviationNode.fresh, st.ctx, st.top :: st.rest⟩ hall'
        constructor
        · intro hle
          simp only [parseLoopF, hpos, if_pos, hstep]
          exact ihrec.1 (by omega)
        · intro _ hle
          simp only [parseLoopF, hpos, if_pos, hstep]
          exact ihrec.2 (by omega) (by omega)
      · constructor
        · intro _
          simp [parseLoopF, hpos, Except.isOk, Except.toBool]
        · intro h
          exact absurd h hpos

theorem replicate_gt_noSpace (n : Nat) : ∀ c ∈ List.replicate n '>', isSpaceChar c = false := by
  intro c hc
  have := List.eq_of_mem_replicate hc
  subst this
  rfl

theorem replicate_gt_all (n : Nat) : ∀ i, 0 ≤ i → i < (List.replicate n '>').length →
    (List.replicate n '>').getD i ' ' = '>' := by
  intro i _ hi
  rw [getD_replicate]
  simp only [List.length_replicate] at hi
  simp [hi]

/-- C8 counterexample: the guard does not fire only beyond 1000
iterations.  An input of exactly 1000 child operators needs exactly 1000
scan iterations — with a budget of 1001 the loop completes — yet the
parser, whose guard decrements its budget of 1000 before each iteration,
aborts it with the runaway error after 999 iterations. -/
theorem loop_guard_fires_at_thousand :
    parseAbbreviationS (String.mk (List.replicate 1000 '>')) =
      .error "Endless loop detected" ∧
    (parseLoopF (parseAbbreviationF 0) (List.replicate 1000 '>') 1001 0
      initPState).isOk = true := by
  constructor
  · have htrim : trim (List.replicate 1000 '>') = List.replicate 1000 '>' :=
      trim_eq_self _ (replicate_gt_noSpace 1000)
    have hlen : (String.mk (List.replicate 1000 '>')).data.length = 1000 :=
      List.length_replicate 1000 '>'
    simp only [parseAbbreviationS, parseAbbreviation, hlen]
    rw [parseAbbreviationF.eq_2, htrim]
    have herr := (parseLoop_gt_run (parseAbbreviationF 1000) (List.replicate 1000 '>')
      1000 0 initPState (replicate_gt_all 1000)).2
      (by simp only [List.length_replicate]; omega)
      (by simp only [List.length_replicate]; omega)
    rw [herr]
  · exact (parseLoop_gt_run (parseAbbreviationF 0) (List.replicate 1000 '>')
      1001 0 initPState (replicate_gt_all 1000)).1
      (by simp only [List.length_replicate]; omega)

/-- C8 amended: the scan loop is budgeted by the fixed constant 1000: the
guard is decremented before each iteration and the loop aborts with
`Endless loop detected` exactly when input remains while fewer than two
units of budget are left, so at most 999 iterations ever run and an input
that is not consumed within them — for instance one on which an iteration
makes no progress — is aborted; once the input is exhausted the loop
returns normally whatever budget remains.  The constant 1000 is hard-wired
into `parseAbbreviationF`, not configurable; an input of 999 child
operators still parses. -/
theorem loop_guard_budget :
    (∀ (recP : List Char → Except String AbbreviationNode) (s : List Char)
      (pos : Nat) (st : PState), pos < s.length →
      parseLoopF recP s 0 pos st = .error "Endless loop detected" ∧
      parseLoopF recP s 1 pos st = .error "Endless loop detected") ∧
    (∀ (recP : List Char → Except String AbbreviationNode) (s : List Char)
      (fuel pos : Nat) (st : PState), s.length ≤ pos →
      parseLoopF recP s fuel pos st = .ok st) ∧
    (∀ (recP : List Char → Except String AbbreviationNode) (s : List Char)
      (fuel pos : Nat) (st : PState) (pos' : Nat) (st' : PState),
      pos < s.length → parseStepF recP s pos st = .ok (pos', st') →
      parseLoopF recP s (fuel + 2) pos st = parseLoopF recP s (fuel + 1) pos' st') ∧
    (∀ (d : Nat) (s : List Char), parseAbbreviationF (d + 1) s =
      (match parseLoopF (parseAbbreviationF d) (trim s) 1000 0 initPState with
       | .error e => .error e
       | .ok st => .ok (closeAll st))) ∧
    (∀ s : List Char, parseAbbreviation s = parseAbbreviationF (s.length + 1) s) ∧
    (∀ (recP : List Char → Except String AbbreviationNode) (s : List Char)
      (pos : Nat) (st : PState) (fuel : Nat),
      pos < s.length → parseStepF recP s pos st = .ok (pos, st) →
      parseLoopF recP s fuel pos st = .error "Endless loop detected") ∧
    (parseAbbreviationS (String.mk (List.replicate 999 '>'))).isOk = true := by
  refine ⟨?_, ?_, ?_, ?_, ?_, ?_, ?_⟩
  · intro recP s pos st h
    exact ⟨by simp [parseLoopF, h], by simp [parseLoopF, h]⟩
  · intro recP s fuel pos st h
    exact parseLoopF_eol recP s fuel pos st h
  · intro recP s fuel pos st pos' st' hlt hstep
    simp [parseLoopF, hlt, hstep]
  · intro d s
    rfl
  · intro s
    rfl
  · intro recP s pos st fuel hlt hstep
    induction fuel using Nat.strong_induction_on with
    | _ fuel ih =>
      match fuel with
      | 0 => simp [parseLoopF, hlt]
      | 1 => simp [parseLoopF, hlt]
      | (f + 2) =>
        simp only [parseLoopF, hlt, if_pos, hstep]
        exact ih (f + 1) (by omega)
  · have htrim : trim (List.replicate 999 '>') = List.replicate 999 '>' :=
      trim_eq_self _ (replicate_gt_noSpace 999)
    have hlen : (String.mk (List.replicate 999 '>')).data.length = 999 :=
      List.length_replicate 999 '>'
    simp only [parseAbbreviationS, parseAbbreviation, hlen]
    rw [parseAbbreviationF.eq_2, htrim]
    have hok := (parseLoop_gt_run (parseAbbreviationF 999) (List.replicate 999 '>')
      1000 0 initPState (replicate_gt_all 999)).1
      (by simp only [List.length_replicate]; omega)
    match hres : parseLoopF (parseAbbreviationF 999) (List.replicate 999 '>')
        1000 0 initPState with
    | .error e =>
      rw [hres] at hok
      simp [Except.isOk, Except.toBool] at hok
    | .ok st =>
      simp [Except.isOk, Except.toBool]

theorem loop_guard_budget_witness :
    (((["x"].head!).data).length ≤ 1) ∧
      parseLoopF (parseAbbreviationF 0) (["x"].head!).data 5 1 initPState =
        .ok initPState :=
  ⟨by decide, loop_guard_budget.2.1 _ _ 5 1 initPState (by decide)⟩
